import Mathlib

/-!
Shallow embedding of the graph / label-propagation core of the repository
(`src/graph.rs`) and proofs about it.

Modelling conventions:
* A node identity is a `String`, as in the source.
* `HashMap<String, V>` is modelled as an association list `List (String × V)`
  whose keys are kept distinct by the operations themselves (mirroring the
  uniqueness of `HashMap` keys); a fresh entry is appended at the end.
* `HashSet<String>` is modelled as a duplicate-free `List String`; insertion
  appends the element only when absent.
* `thread_rng`-driven nondeterminism (the per-pass shuffle) and the
  implementation-defined `HashMap` iteration order that decides ties in
  `max_by_key` are both made explicit through a `Schedule` parameter: a node
  visitation order per pass, and, per visit, an index choosing among the
  labels of maximal tally (every such label is a possible outcome of
  `max_by_key` under some hash-map iteration order, and only those are).
* The `labels.get(node).unwrap()` call can panic on a missing key; the
  embedding therefore returns `Option`, with `none` denoting the panic.
-/

namespace EmailGraph

abbrev Node := String

/-- `HashMap` lookup: the value stored at key `k`, if any. -/
def hmGet {α : Type} : List (Node × α) → Node → Option α
  | [], _ => none
  | (k', v) :: rest, k => if k' = k then some v else hmGet rest k

/-- `HashMap::insert`: replace the value at `k` if present, else append the entry. -/
def hmInsert {α : Type} : List (Node × α) → Node → α → List (Node × α)
  | [], k, v => [(k, v)]
  | (k', v') :: rest, k, v =>
      if k' = k then (k, v) :: rest else (k', v') :: hmInsert rest k v

/-- `HashMap::get_mut` followed by an in-place update: apply `f` to the value
stored at `k`; no-op when the key is absent (the `if let Some(..)` pattern). -/
def hmModify {α : Type} : List (Node × α) → Node → (α → α) → List (Node × α)
  | [], _, _ => []
  | (k', v') :: rest, k, f =>
      if k' = k then (k', f v') :: rest else (k', v') :: hmModify rest k f

/-- `HashSet::insert`: add `x` when absent (set semantics). -/
def hsInsert (s : List Node) (x : Node) : List Node :=
  if x ∈ s then s else s ++ [x]

/-- The graph struct of `graph.rs`: vertex counter and adjacency list. -/
structure Graph where
  num_vertices : Nat
  adjacency_list : List (Node × List Node)
  deriving DecidableEq, Repr

/-- `Graph::new`: the empty graph. -/
def Graph.new : Graph := { num_vertices := 0, adjacency_list := [] }

/-- The `adjacency_list.entry(k).or_insert_with(|| { num_vertices += 1; HashSet::new() })`
pattern of `add_edge`: materialise the key with an empty neighbor set,
incrementing `num_vertices`, when absent. -/
def ensureKey (g : Graph) (k : Node) : Graph :=
  if (hmGet g.adjacency_list k).isSome then g
  else { num_vertices := g.num_vertices + 1,
         adjacency_list := g.adjacency_list ++ [(k, [])] }

/-- `Graph::add_edge`: materialise both endpoints, then insert `to_node` into
`from_node`'s neighbor set (the `get_mut(..).unwrap().insert(..)` line; the
`unwrap` cannot fail because `from_node` was just materialised, so it is
modelled by the total in-place update). -/
def Graph.add_edge (g : Graph) (from_node to_node : Node) : Graph :=
  let g2 := ensureKey (ensureKey g from_node) to_node
  { g2 with adjacency_list :=
      hmModify g2.adjacency_list from_node (fun ns => hsInsert ns to_node) }

/-- Folding a list of `(from, to)` pairs into a graph with `add_edge`,
starting from `Graph::new` (the shape of `build_from_emails`). -/
def buildGraph (edges : List (Node × Node)) : Graph :=
  edges.foldl (fun g e => g.add_edge e.1 e.2) Graph.new

/-- `Graph::get_neighbors`. -/
def Graph.get_neighbors (g : Graph) (node : Node) : Option (List Node) :=
  hmGet g.adjacency_list node

/-- `Graph::calculate_out_degrees`: one entry per adjacency key, mapping it to
the size of its neighbor set (`map_or(0, |n| n.len())`). -/
def Graph.calculate_out_degrees (g : Graph) : List (Node × Nat) :=
  g.adjacency_list.map
    (fun p => (p.1, ((g.get_neighbors p.1).map List.length).getD 0))

/-- `Graph::calculate_in_degrees`: initialise every key to `0`, then walk every
neighbor set, incrementing the counter of each member when present
(`if let Some(count) = in_degrees.get_mut(neighbor)`). -/
def Graph.calculate_in_degrees (g : Graph) : List (Node × Nat) :=
  g.adjacency_list.foldl
    (fun m p => p.2.foldl (fun m' neighbor => hmModify m' neighbor (· + 1)) m)
    (g.adjacency_list.map (fun p => (p.1, 0)))

/-! ### Label propagation -/

/-- The non-deterministic inputs of one `label_propagation` run:
`orders i` is the node visitation order of pass `i` (the shuffled key list),
and `picks i j` selects, at the `j`-th visit of pass `i`, which maximal-tally
label `max_by_key` returns (tie-break by hash-map iteration order). -/
structure Schedule where
  orders : Nat → List Node
  picks : Nat → Nat → Nat

/-- The labels actually tallied for a neighbor set: the current label of each
neighbor that has one (a neighbor missing from `labels` is skipped by the
source's `if let Some(label) = labels.get(neighbor)`). -/
def tallyLabels (labels : List (Node × Node)) (neighbors : List Node) : List Node :=
  neighbors.filterMap (fun n => hmGet labels n)

/-- Distinct elements of a list, in first-occurrence order. -/
def distinctList (ls : List Node) : List Node :=
  ls.foldl (fun acc x => if x ∈ acc then acc else acc ++ [x]) []

/-- The largest tally any label reaches. -/
def maxTally (tally : List Node) : Nat :=
  ((distinctList tally).map (fun l => tally.count l)).foldl max 0

/-- The labels of maximal tally: exactly the possible results of
`label_counts.iter().max_by_key(|&(_, count)| count)` across hash-map
iteration orders. Empty iff the tally itself is empty. -/
def argmaxLabels (tally : List Node) : List Node :=
  (distinctList tally).filter (fun l => tally.count l = maxTally tally)

/-- One node visit of the inner loop of `label_propagation`. Returns the
updated labels and whether this visit set `changed`; `none` models the panic
of `labels.get(node).unwrap()`. -/
def visitNode (g : Graph) (labels : List (Node × Node)) (node : Node)
    (pick : Nat) : Option (List (Node × Node) × Bool) :=
  match g.get_neighbors node with
  | none => some (labels, false)
  | some neighbors =>
    if neighbors = [] then some (labels, false)
    else
      let tally := tallyLabels labels neighbors
      let cands := argmaxLabels tally
      if cands = [] then some (labels, false)
      else
        let max_label := cands.getD (pick % cands.length) ""
        match hmGet labels node with
        | none => none
        | some current_label =>
          if current_label ≠ max_label then
            some (hmInsert labels node max_label, true)
          else some (labels, false)

/-- One full pass: visit the nodes of `order` in turn (position `i` numbers
the visits so `picks` can address them), threading `labels` and the
`changed` flag. -/
def passAux (g : Graph) (picks : Nat → Nat) :
    List Node → Nat → List (Node × Node) → Bool →
    Option (List (Node × Node) × Bool)
  | [], _, labels, changed => some (labels, changed)
  | node :: rest, i, labels, changed =>
    match visitNode g labels node (picks i) with
    | none => none
    | some (labels', ch) => passAux g picks rest (i + 1) labels' (changed || ch)

/-- The `for iteration in 0..max_iterations` loop. The pass result's `changed`
flag is computed but never consulted — exactly as in the source, which sets
`changed` but contains no early `break` on convergence. -/
def lpLoop (g : Graph) (sched : Schedule) :
    Nat → Nat → List (Node × Node) → Option (List (Node × Node))
  | 0, _, labels => some labels
  | fuel + 1, iter, labels =>
    match passAux g (sched.picks iter) (sched.orders iter) 0 labels false with
    | none => none
    | some (labels', _changed) => lpLoop g sched fuel (iter + 1) labels'

/-- The iteration cap of `label_propagation`. -/
def max_iterations : Nat := 500

/-- Seed labels: every adjacency key labelled with itself. -/
def labelsInit (g : Graph) : List (Node × Node) :=
  g.adjacency_list.map (fun p => (p.1, p.1))

/-- `Graph::label_propagation`, parameterised by the schedule; `none` models
the panic of the `unwrap` on a missing label. -/
def Graph.label_propagation (g : Graph) (sched : Schedule) :
    Option (List (Node × Node)) :=
  lpLoop g sched max_iterations 0 (labelsInit g)

/-- Number of loop-body executions (passes) the `for` loop performs: the
source loop iterates unconditionally over `0..max_iterations`, so every
iteration runs unless the panic aborts the whole call mid-pass. -/
def lpLoopCount (g : Graph) (sched : Schedule) :
    Nat → Nat → List (Node × Node) → Nat
  | 0, _, _ => 0
  | fuel + 1, iter, labels =>
    match passAux g (sched.picks iter) (sched.orders iter) 0 labels false with
    | none => 1
    | some (labels', _) => 1 + lpLoopCount g sched fuel (iter + 1) labels'

/-- Passes executed by one `label_propagation` call. -/
def lpPassesExecuted (g : Graph) (sched : Schedule) : Nat :=
  lpLoopCount g sched max_iterations 0 (labelsInit g)

/-! ### Strict variant

A second rendering of the tallying loop in which the `labels.get(neighbor)`
lookup is *strict*: a missing key aborts (`none`) instead of being skipped.
Comparing it with the code-faithful version above shows the skipping
`if let Some(..)` branch is never exercised on reachable graphs. -/

/-- Strict tally: fails if any neighbor is missing from `labels`. -/
def tallyLabelsStrict (labels : List (Node × Node)) : List Node → Option (List Node)
  | [] => some []
  | n :: rest =>
    match hmGet labels n with
    | none => none
    | some l => (tallyLabelsStrict labels rest).map (fun ls => l :: ls)

/-- `visitNode` with the strict tally. -/
def visitNodeStrict (g : Graph) (labels : List (Node × Node)) (node : Node)
    (pick : Nat) : Option (List (Node × Node) × Bool) :=
  match g.get_neighbors node with
  | none => some (labels, false)
  | some neighbors =>
    if neighbors = [] then some (labels, false)
    else
      match tallyLabelsStrict labels neighbors with
      | none => none
      | some tally =>
        let cands := argmaxLabels tally
        if cands = [] then some (labels, false)
        else
          let max_label := cands.getD (pick % cands.length) ""
          match hmGet labels node with
          | none => none
          | some current_label =>
            if current_label ≠ max_label then
              some (hmInsert labels node max_label, true)
            else some (labels, false)

/-- One full pass with the strict tally. -/
def passAuxStrict (g : Graph) (picks : Nat → Nat) :
    List Node → Nat → List (Node × Node) → Bool →
    Option (List (Node × Node) × Bool)
  | [], _, labels, changed => some (labels, changed)
  | node :: rest, i, labels, changed =>
    match visitNodeStrict g labels node (picks i) with
    | none => none
    | some (labels', ch) => passAuxStrict g picks rest (i + 1) labels' (changed || ch)

/-- The iteration loop with the strict tally. -/
def lpLoopStrict (g : Graph) (sched : Schedule) :
    Nat → Nat → List (Node × Node) → Option (List (Node × Node))
  | 0, _, labels => some labels
  | fuel + 1, iter, labels =>
    match passAuxStrict g (sched.picks iter) (sched.orders iter) 0 labels false with
    | none => none
    | some (labels', _changed) => lpLoopStrict g sched fuel (iter + 1) labels'

/-- `label_propagation` with the strict tally. -/
def label_propagation_strict (g : Graph) (sched : Schedule) :
    Option (List (Node × Node)) :=
  lpLoopStrict g sched max_iterations 0 (labelsInit g)

/-! ### Derived measurements -/

/-- Sum of the values of a degree map. -/
def sumValues (m : List (Node × Nat)) : Nat := (m.map Prod.snd).sum

/-- The directed edges recorded in the adjacency relation, as ordered pairs. -/
def edgeList (g : Graph) : List (Node × Node) :=
  g.adjacency_list.foldr (fun p acc => p.2.map (fun n => (p.1, n)) ++ acc) []

/-- Number of distinct label values of a label assignment. -/
def numDistinctLabels (m : List (Node × Node)) : Nat :=
  (distinctList (m.map Prod.snd)).length

/-- Number of nodes carrying label `l` in a label assignment. -/
def labelPopulation (m : List (Node × Node)) (l : Node) : Nat :=
  (m.map Prod.snd).count l

/-! ### Well-formedness invariant of reachable graphs -/

/-- The state invariant maintained by `Graph::new` / `Graph::add_edge`:
distinct keys, duplicate-free neighbor sets, every neighbor present as a key,
and `num_vertices` equal to the number of keys. -/
structure GraphInv (g : Graph) : Prop where
  nodupKeys : (g.adjacency_list.map Prod.fst).Nodup
  nodupNbrs : ∀ p ∈ g.adjacency_list, p.2.Nodup
  closed : ∀ p ∈ g.adjacency_list, ∀ n ∈ p.2, (hmGet g.adjacency_list n).isSome
  count : g.num_vertices = g.adjacency_list.length

/-- The state invariant of the `labels` map inside `label_propagation`: its
keys are exactly the adjacency keys (in order) and every stored label is
itself an adjacency key. -/
structure LabInv (g : Graph) (labels : List (Node × Node)) : Prop where
  keys : labels.map Prod.fst = g.adjacency_list.map Prod.fst
  values : ∀ p ∈ labels, (hmGet g.adjacency_list p.2).isSome

/-! ### Concrete instances used by witnesses and counterexamples -/

/-- A two-node graph with the single edge `a → b`. -/
def gAB : Graph := buildGraph [("a", "b")]

/-- The trivial schedule on `gAB`: visit `a` then `b`, first-candidate picks. -/
def schedAB : Schedule := ⟨fun _ => ["a", "b"], fun _ _ => 0⟩

/-- The edge list of two disjoint triangles with all intra-triangle edges
mutual. -/
def triangleEdges : List (Node × Node) :=
  [("A", "B"), ("B", "A"), ("A", "C"), ("C", "A"), ("B", "C"), ("C", "B"),
   ("D", "E"), ("E", "D"), ("D", "F"), ("F", "D"), ("E", "F"), ("F", "E")]

/-- Two disjoint mutual triangles `{A,B,C}` and `{D,E,F}`. -/
def twoTriangles : Graph := buildGraph triangleEdges

/-- An adversarial schedule for `twoTriangles`: visit in order `B,A,C,D,E,F`
every pass and resolve the ties at visit positions 1 and 2 by the second
maximal label. Under it the `{A,B,C}` triangle oscillates with period 2 and
never becomes uniform. -/
def schedAdv : Schedule :=
  ⟨fun _ => ["B", "A", "C", "D", "E", "F"],
   fun _ j => if j = 1 ∨ j = 2 then 1 else 0⟩

/-- A benign schedule for `twoTriangles`: visit in key order, always take the
first maximal label. Under it both triangles become uniform in pass 0. -/
def schedNice : Schedule := ⟨fun _ => ["A", "B", "C", "D", "E", "F"], fun _ _ => 0⟩

/-- Labels of `gAB` after its first pass under `schedAB`; a fixed point of all
further passes. -/
def lABfix : List (Node × Node) := [("a", "b"), ("b", "b")]

/-- First state of the period-2 oscillation of `twoTriangles` under
`schedAdv` (reached from the seed labels after one pass). -/
def oscA : List (Node × Node) :=
  [("A", "C"), ("B", "A"), ("C", "A"), ("D", "E"), ("E", "E"), ("F", "E")]

/-- Second state of the period-2 oscillation of `twoTriangles` under
`schedAdv`. -/
def oscB : List (Node × Node) :=
  [("A", "A"), ("B", "C"), ("C", "C"), ("D", "E"), ("E", "E"), ("F", "E")]

/-- The uniform labelling `twoTriangles` reaches under `schedNice` after one
pass; a fixed point of all further passes. -/
def uniTri : List (Node × Node) :=
  [("A", "B"), ("B", "B"), ("C", "B"), ("D", "E"), ("E", "E"), ("F", "E")]

/-! ## Basic lemmas about the map and set operations -/

theorem hmGet_nil {α : Type} (k : Node) : hmGet ([] : List (Node × α)) k = none := rfl

theorem hmGet_cons {α : Type} (k' : Node) (v : α) (rest : List (Node × α)) (k : Node) :
    hmGet ((k', v) :: rest) k = if k' = k then some v else hmGet rest k := rfl

theorem hmGet_append_of_isSome {α : Type} {m : List (Node × α)} {k : Node}
    (l : List (Node × α)) (h : (hmGet m k).isSome) :
    hmGet (m ++ l) k = hmGet m k := by
  induction m with
  | nil => simp [hmGet] at h
  | cons p rest ih =>
    obtain ⟨k', v⟩ := p
    by_cases hk : k' = k
    · simp [hmGet_cons, hk]
    · simp only [hmGet_cons, if_neg hk] at h
      simpa [hmGet_cons, hk] using ih h

theorem hmGet_append_of_none {α : Type} {m : List (Node × α)} {k : Node}
    (l : List (Node × α)) (h : hmGet m k = none) :
    hmGet (m ++ l) k = hmGet l k := by
  induction m with
  | nil => simp
  | cons p rest ih =>
    obtain ⟨k', v⟩ := p
    by_cases hk : k' = k
    · simp [hmGet_cons, hk] at h
    · simp only [hmGet_cons, if_neg hk] at h
      simpa [hmGet_cons, hk] using ih h

theorem hmGet_isSome_append {α : Type} {m : List (Node × α)} {k : Node}
    (l : List (Node × α)) (h : (hmGet m k).isSome) :
    (hmGet (m ++ l) k).isSome := by
  rw [hmGet_append_of_isSome l h]; exact h

theorem hmGet_eq_some_mem {α : Type} {m : List (Node × α)} {k : Node} {v : α}
    (h : hmGet m k = some v) : (k, v) ∈ m := by
  induction m with
  | nil => simp [hmGet] at h
  | cons p rest ih =>
    obtain ⟨k', v'⟩ := p
    by_cases hk : k' = k
    · simp only [hmGet_cons, if_pos hk, Option.some.injEq] at h
      subst hk; subst h; exact List.mem_cons_self _ _
    · simp only [hmGet_cons, if_neg hk] at h
      exact List.mem_cons_of_mem _ (ih h)

theorem hmGet_isSome_iff {α : Type} {m : List (Node × α)} {k : Node} :
    (hmGet m k).isSome ↔ k ∈ m.map Prod.fst := by
  induction m with
  | nil => simp [hmGet]
  | cons p rest ih =>
    obtain ⟨k', v'⟩ := p
    by_cases hk : k' = k
    · simp [hmGet_cons, hk]
    · simp [hmGet_cons, hk, ih, Ne.symm hk]

theorem hmGet_mem_self {α : Type} {m : List (Node × α)} {k : Node} {v : α}
    (hnd : (m.map Prod.fst).Nodup) (hm : (k, v) ∈ m) : hmGet m k = some v := by
  induction m with
  | nil => simp at hm
  | cons p rest ih =>
    obtain ⟨k', v'⟩ := p
    simp only [List.map_cons, List.nodup_cons] at hnd
    rcases List.mem_cons.mp hm with h | h
    · obtain ⟨hk, hv⟩ := Prod.mk.injEq .. ▸ h
      simp [hmGet_cons, hk.symm, hv.symm]
    · have hk : k' ≠ k := by
        intro he; subst he
        exact hnd.1 (List.mem_map.mpr ⟨(k', v), h, rfl⟩)
      simpa [hmGet_cons, hk] using ih hnd.2 h

theorem hmGet_hmModify_self {α : Type} (m : List (Node × α)) (k : Node) (f : α → α) :
    hmGet (hmModify m k f) k = (hmGet m k).map f := by
  induction m with
  | nil => simp [hmGet, hmModify]
  | cons p rest ih =>
    obtain ⟨k', v'⟩ := p
    by_cases hk : k' = k
    · simp [hmModify, hmGet_cons, hk]
    · simp [hmModify, hmGet_cons, hk, ih]

theorem hmGet_hmModify_ne {α : Type} (m : List (Node × α)) {k k' : Node}
    (f : α → α) (h : k' ≠ k) : hmGet (hmModify m k f) k' = hmGet m k' := by
  induction m with
  | nil => simp [hmModify]
  | cons p rest ih =>
    obtain ⟨a, b⟩ := p
    by_cases ha : a = k
    · subst ha
      simp [hmModify, hmGet_cons, Ne.symm h]
    · simp [hmModify, hmGet_cons, ha, ih]

theorem keys_hmModify {α : Type} (m : List (Node × α)) (k : Node) (f : α → α) :
    (hmModify m k f).map Prod.fst = m.map Prod.fst := by
  induction m with
  | nil => rfl
  | cons p rest ih =>
    obtain ⟨a, b⟩ := p
    by_cases ha : a = k <;> simp [hmModify, ha, ih]

theorem length_hmModify {α : Type} (m : List (Node × α)) (k : Node) (f : α → α) :
    (hmModify m k f).length = m.length := by
  have := congrArg List.length (keys_hmModify m k f)
  simpa using this

theorem mem_hmModify {α : Type} {m : List (Node × α)} {k : Node} {f : α → α}
    {p : Node × α} (h : p ∈ hmModify m k f) :
    p ∈ m ∨ ∃ v, (k, v) ∈ m ∧ p = (k, f v) := by
  induction m with
  | nil => simp [hmModify] at h
  | cons q rest ih =>
    obtain ⟨a, b⟩ := q
    by_cases ha : a = k
    · subst ha
      simp only [hmModify, if_pos rfl] at h
      cases h with
      | head => exact Or.inr ⟨b, List.mem_cons_self _ _, rfl⟩
      | tail _ h => exact Or.inl (List.mem_cons_of_mem _ h)
    · simp only [hmModify, if_neg ha, List.mem_cons] at h
      rcases h with h | h
      · exact Or.inl (List.mem_cons.mpr (Or.inl h))
      · rcases ih h with h' | ⟨v, hv, hp⟩
        · exact Or.inl (List.mem_cons_of_mem _ h')
        · exact Or.inr ⟨v, List.mem_cons_of_mem _ hv, hp⟩

theorem hmGet_hmInsert_self {α : Type} (m : List (Node × α)) (k : Node) (v : α) :
    hmGet (hmInsert m k v) k = some v := by
  induction m with
  | nil => simp [hmInsert, hmGet_cons]
  | cons p rest ih =>
    obtain ⟨a, b⟩ := p
    by_cases ha : a = k
    · simp [hmInsert, ha, hmGet_cons]
    · simp [hmInsert, ha, hmGet_cons, ih]

theorem hmGet_hmInsert_ne {α : Type} (m : List (Node × α)) {k k' : Node}
    (v : α) (h : k' ≠ k) : hmGet (hmInsert m k v) k' = hmGet m k' := by
  induction m with
  | nil => simp [hmInsert, hmGet_cons, Ne.symm h]
  | cons p rest ih =>
    obtain ⟨a, b⟩ := p
    by_cases ha : a = k
    · subst ha
      simp [hmInsert, hmGet_cons, Ne.symm h]
    · simp [hmInsert, ha, hmGet_cons, ih]

theorem keys_hmInsert_of_isSome {α : Type} {m : List (Node × α)} {k : Node}
    (v : α) (h : (hmGet m k).isSome) :
    (hmInsert m k v).map Prod.fst = m.map Prod.fst := by
  induction m with
  | nil => simp [hmGet] at h
  | cons p rest ih =>
    obtain ⟨a, b⟩ := p
    by_cases ha : a = k
    · simp [hmInsert, ha]
    · simp only [hmGet_cons, if_neg ha] at h
      simp [hmInsert, ha, ih h]

theorem mem_hmInsert {α : Type} {m : List (Node × α)} {k : Node} {v : α}
    {p : Node × α} (h : p ∈ hmInsert m k v) : p ∈ m ∨ p = (k, v) := by
  induction m with
  | nil => simpa [hmInsert] using h
  | cons q rest ih =>
    obtain ⟨a, b⟩ := q
    by_cases ha : a = k
    · subst ha
      simp only [hmInsert, if_pos rfl] at h
      cases h with
      | head => exact Or.inr rfl
      | tail _ h => exact Or.inl (List.mem_cons_of_mem _ h)
    · simp only [hmInsert, if_neg ha, List.mem_cons] at h
      rcases h with h | h
      · exact Or.inl (List.mem_cons.mpr (Or.inl h))
      · rcases ih h with h' | h'
        · exact Or.inl (List.mem_cons_of_mem _ h')
        · exact Or.inr h'

theorem mem_hsInsert {s : List Node} {x y : Node} :
    x ∈ hsInsert s y ↔ x ∈ s ∨ x = y := by
  unfold hsInsert
  by_cases hy : y ∈ s
  · simp only [if_pos hy]
    constructor
    · exact Or.inl
    · rintro (h | rfl)
      · exact h
      · exact hy
  · simp [if_neg hy]

theorem nodup_hsInsert {s : List Node} (y : Node) (h : s.Nodup) :
    (hsInsert s y).Nodup := by
  unfold hsInsert
  by_cases hy : y ∈ s
  · simpa [if_pos hy]
  · simp [if_neg hy, List.nodup_append, h, hy]

theorem hsInsert_of_mem {s : List Node} {y : Node} (h : y ∈ s) :
    hsInsert s y = s := by
  simp [hsInsert, h]

theorem mem_hsInsert_self (s : List Node) (y : Node) : y ∈ hsInsert s y :=
  mem_hsInsert.mpr (Or.inr rfl)

/-! ## The construction operations preserve the invariant -/

theorem hmGet_isSome_of_keys_eq {α β : Type} {m₁ : List (Node × α)}
    {m₂ : List (Node × β)} (hk : m₁.map Prod.fst = m₂.map Prod.fst) (k : Node) :
    (hmGet m₁ k).isSome = (hmGet m₂ k).isSome := by
  apply Bool.eq_iff_iff.mpr
  rw [hmGet_isSome_iff, hmGet_isSome_iff, hk]

theorem hmGet_ensureKey_self (g : Graph) (k : Node) :
    (hmGet (ensureKey g k).adjacency_list k).isSome := by
  unfold ensureKey
  by_cases h : (hmGet g.adjacency_list k).isSome
  · simp [h]
  · have hn : hmGet g.adjacency_list k = none :=
      Option.not_isSome_iff_eq_none.mp h
    simp [h, hmGet_append_of_none _ hn, hmGet_cons]

theorem hmGet_ensureKey_of_isSome {g : Graph} {k' : Node} (k : Node)
    (h : (hmGet g.adjacency_list k').isSome) :
    hmGet (ensureKey g k).adjacency_list k' = hmGet g.adjacency_list k' := by
  unfold ensureKey
  by_cases hk : (hmGet g.adjacency_list k).isSome
  · simp [hk]
  · simp [hk, hmGet_append_of_isSome _ h]

theorem hmGet_ensureKey_isSome {g : Graph} {k' : Node} (k : Node)
    (h : (hmGet g.adjacency_list k').isSome) :
    (hmGet (ensureKey g k).adjacency_list k').isSome := by
  rw [hmGet_ensureKey_of_isSome k h]; exact h

theorem graphInv_new : GraphInv Graph.new := by
  constructor <;> simp [Graph.new]

theorem graphInv_ensureKey {g : Graph} (h : GraphInv g) (k : Node) :
    GraphInv (ensureKey g k) := by
  unfold ensureKey
  by_cases hk : (hmGet g.adjacency_list k).isSome
  · simp only [hk, if_true]
    exact h
  · simp only [hk, if_neg, Bool.false_eq_true, ite_false]
    constructor
    · simp only [List.map_append, List.map_cons, List.map_nil]
      rw [List.nodup_append]
      refine ⟨h.nodupKeys, List.nodup_singleton _, ?_⟩
      intro a ha hb
      simp only [List.mem_singleton] at hb
      subst hb
      exact hk (hmGet_isSome_iff.mpr ha)
    · intro p hp
      rcases List.mem_append.mp hp with hp | hp
      · exact h.nodupNbrs p hp
      · simp only [List.mem_singleton] at hp
        subst hp; exact List.nodup_nil
    · intro p hp n hn
      rcases List.mem_append.mp hp with hp | hp
      · exact hmGet_isSome_append _ (h.closed p hp n hn)
      · simp only [List.mem_singleton] at hp
        subst hp; simp at hn
    · simp [h.count]

theorem graphInv_add_edge {g : Graph} (h : GraphInv g) (a b : Node) :
    GraphInv (g.add_edge a b) := by
  have h2 : GraphInv (ensureKey (ensureKey g a) b) :=
    graphInv_ensureKey (graphInv_ensureKey h a) b
  set g2 := ensureKey (ensureKey g a) b with hg2
  have hb : (hmGet g2.adjacency_list b).isSome := hmGet_ensureKey_self _ b
  constructor
  · show ((hmModify g2.adjacency_list a _).map Prod.fst).Nodup
    rw [keys_hmModify]; exact h2.nodupKeys
  · intro p hp
    rcases mem_hmModify hp with hp | ⟨v, hv, rfl⟩
    · exact h2.nodupNbrs p hp
    · exact nodup_hsInsert b (h2.nodupNbrs _ hv)
  · intro p hp n hn
    have hkeys : (hmModify g2.adjacency_list a
        (fun ns => hsInsert ns b)).map Prod.fst = g2.adjacency_list.map Prod.fst :=
      keys_hmModify _ _ _
    have htrans : ∀ n', (hmGet g2.adjacency_list n').isSome →
        (hmGet (hmModify g2.adjacency_list a (fun ns => hsInsert ns b)) n').isSome := by
      intro n' h'
      rw [hmGet_isSome_of_keys_eq hkeys]; exact h'
    rcases mem_hmModify hp with hp | ⟨v, hv, rfl⟩
    · exact htrans n (h2.closed p hp n hn)
    · rcases mem_hsInsert.mp hn with hn | rfl
      · exact htrans n (h2.closed _ hv n hn)
      · exact htrans n hb
  · show g2.num_vertices = (hmModify g2.adjacency_list a _).length
    rw [length_hmModify]; exact h2.count

theorem graphInv_foldl {edges : List (Node × Node)} {g : Graph} (h : GraphInv g) :
    GraphInv (edges.foldl (fun g e => g.add_edge e.1 e.2) g) := by
  induction edges generalizing g with
  | nil => exact h
  | cons e rest ih => exact ih (graphInv_add_edge h e.1 e.2)

theorem graphInv_buildGraph (edges : List (Node × Node)) :
    GraphInv (buildGraph edges) :=
  graphInv_foldl graphInv_new

theorem Graph.eq_of_fields {g₁ g₂ : Graph}
    (h1 : g₁.num_vertices = g₂.num_vertices)
    (h2 : g₁.adjacency_list = g₂.adjacency_list) : g₁ = g₂ := by
  cases g₁; cases g₂; simp_all

theorem ensureKey_of_isSome {g : Graph} {k : Node}
    (h : (hmGet g.adjacency_list k).isSome) : ensureKey g k = g := by
  unfold ensureKey; simp [h]

theorem hmModify_hmModify {α : Type} (m : List (Node × α)) (k : Node)
    (f₁ f₂ : α → α) :
    hmModify (hmModify m k f₁) k f₂ = hmModify m k (fun v => f₂ (f₁ v)) := by
  induction m with
  | nil => rfl
  | cons p rest ih =>
    obtain ⟨a, b⟩ := p
    by_cases ha : a = k <;> simp [hmModify, ha, ih]

theorem add_edge_adjacency (g : Graph) (a b : Node) :
    (g.add_edge a b).adjacency_list =
      hmModify (ensureKey (ensureKey g a) b).adjacency_list a
        (fun ns => hsInsert ns b) := rfl

theorem add_edge_num_vertices (g : Graph) (a b : Node) :
    (g.add_edge a b).num_vertices =
      (ensureKey (ensureKey g a) b).num_vertices := rfl

theorem getD_ensureKey (g : Graph) (k n : Node) :
    (hmGet (ensureKey g k).adjacency_list n).getD [] =
      (hmGet g.adjacency_list n).getD [] := by
  unfold ensureKey
  by_cases hk : (hmGet g.adjacency_list k).isSome
  · simp [hk]
  · simp only [hk, Bool.false_eq_true, ite_false]
    by_cases hn : (hmGet g.adjacency_list n).isSome
    · rw [hmGet_append_of_isSome _ hn]
    · have h0 : hmGet g.adjacency_list n = none :=
        Option.not_isSome_iff_eq_none.mp hn
      rw [hmGet_append_of_none _ h0]
      by_cases hkn : k = n <;> simp [hmGet, hmGet_cons, hkn, h0]

theorem hmGet_add_edge_from (g : Graph) (a b : Node) :
    hmGet (g.add_edge a b).adjacency_list a =
      some (hsInsert ((hmGet g.adjacency_list a).getD []) b) := by
  rw [add_edge_adjacency, hmGet_hmModify_self]
  have ha : (hmGet (ensureKey (ensureKey g a) b).adjacency_list a).isSome :=
    hmGet_ensureKey_isSome b (hmGet_ensureKey_self g a)
  obtain ⟨v, hv⟩ := Option.isSome_iff_exists.mp ha
  have hgd : v = (hmGet g.adjacency_list a).getD [] := by
    have h2 := getD_ensureKey (ensureKey g a) b a
    rw [hv, getD_ensureKey g a a] at h2
    simpa using h2
  rw [hv, hgd]; rfl

theorem hmGet_add_edge_ne (g : Graph) {a n : Node} (b : Node) (h : n ≠ a) :
    (hmGet (g.add_edge a b).adjacency_list n).getD [] =
      (hmGet g.adjacency_list n).getD [] := by
  rw [add_edge_adjacency, hmGet_hmModify_ne _ _ h,
    getD_ensureKey, getD_ensureKey]

theorem hmGet_add_edge_isSome (g : Graph) {n : Node} (a b : Node)
    (h : (hmGet g.adjacency_list n).isSome) :
    (hmGet (g.add_edge a b).adjacency_list n).isSome := by
  rw [add_edge_adjacency,
    hmGet_isSome_of_keys_eq (keys_hmModify _ _ _) n]
  exact hmGet_ensureKey_isSome b (hmGet_ensureKey_isSome a h)

/-! ## C4: invariants of reachable graphs -/

/-- C4: for every graph reachable from `Graph::new` by `add_edge` calls, every
node appearing in some neighbor set is itself a key of the adjacency map, and
`num_vertices` equals the number of keys of the adjacency map. -/
theorem C4_reachable_graph_invariants (edges : List (Node × Node)) :
    (∀ p ∈ (buildGraph edges).adjacency_list, ∀ n ∈ p.2,
        (hmGet (buildGraph edges).adjacency_list n).isSome) ∧
    (buildGraph edges).num_vertices =
      ((buildGraph edges).adjacency_list.map Prod.fst).length := by
  have h := graphInv_buildGraph edges
  exact ⟨h.closed, by simpa using h.count⟩

/-- Witness for C4 on the one-edge graph `a → b`. -/
theorem C4_reachable_graph_invariants_witness :
    (hmGet (buildGraph [("a", "b")]).adjacency_list "b").isSome ∧
    (buildGraph [("a", "b")]).num_vertices =
      ((buildGraph [("a", "b")]).adjacency_list.map Prod.fst).length :=
  ⟨(C4_reachable_graph_invariants [("a", "b")]).1 ("a", ["b"]) (by decide)
      "b" (by decide),
   (C4_reachable_graph_invariants [("a", "b")]).2⟩

/-! ## C5: idempotence of `add_edge` -/

/-- C5: calling `add_edge(from, to)` twice in succession yields exactly the
same state as calling it once — same adjacency map, same `num_vertices`, and
hence the same derived degree maps. -/
theorem C5_add_edge_idempotent (g : Graph) (from_node to_node : Node) :
    (g.add_edge from_node to_node).add_edge from_node to_node
      = g.add_edge from_node to_node ∧
    ((g.add_edge from_node to_node).add_edge from_node to_node).calculate_out_degrees
      = (g.add_edge from_node to_node).calculate_out_degrees ∧
    ((g.add_edge from_node to_node).add_edge from_node to_node).calculate_in_degrees
      = (g.add_edge from_node to_node).calculate_in_degrees ∧
    ((g.add_edge from_node to_node).add_edge from_node to_node).num_vertices
      = (g.add_edge from_node to_node).num_vertices := by
  set g1 := g.add_edge from_node to_node with hg1
  have hf : (hmGet g1.adjacency_list from_node).isSome := by
    rw [hg1, hmGet_add_edge_from]; rfl
  have ht : (hmGet g1.adjacency_list to_node).isSome := by
    rw [hg1, add_edge_adjacency,
      hmGet_isSome_of_keys_eq (keys_hmModify _ _ _) to_node]
    exact hmGet_ensureKey_self _ to_node
  have hmain : g1.add_edge from_node to_node = g1 := by
    have h1 : ensureKey g1 from_node = g1 := ensureKey_of_isSome hf
    have h2 : ensureKey (ensureKey g1 from_node) to_node = g1 := by
      rw [h1]; exact ensureKey_of_isSome ht
    apply Graph.eq_of_fields
    · rw [add_edge_num_vertices, h2]
    · rw [add_edge_adjacency, h2, hg1, add_edge_adjacency, hmModify_hmModify]
      have hfun : (fun v => hsInsert (hsInsert v to_node) to_node)
          = (fun ns => hsInsert ns to_node) := by
        funext v
        exact hsInsert_of_mem (mem_hsInsert_self v to_node)
      rw [hfun]
  exact ⟨hmain, by rw [hmain], by rw [hmain], by rw [hmain]⟩

/-! ## C10: frame property of `add_edge` -/

/-- C10: `add_edge(from, to)` leaves every other node's neighbor set
unchanged, changes `from`'s neighbor set exactly by inserting `to`, and never
removes a key or a neighbor-set member. -/
theorem C10_add_edge_frame (g : Graph) (from_node to_node n x : Node) :
    (n ≠ from_node →
      (x ∈ ((g.add_edge from_node to_node).get_neighbors n).getD []
        ↔ x ∈ (g.get_neighbors n).getD [])) ∧
    (x ∈ ((g.add_edge from_node to_node).get_neighbors from_node).getD []
        ↔ (x ∈ (g.get_neighbors from_node).getD [] ∨ x = to_node)) ∧
    ((hmGet g.adjacency_list n).isSome →
      (hmGet (g.add_edge from_node to_node).adjacency_list n).isSome) ∧
    (x ∈ (g.get_neighbors n).getD [] →
      x ∈ ((g.add_edge from_node to_node).get_neighbors n).getD []) := by
  refine ⟨?_, ?_, ?_, ?_⟩
  · intro hn
    unfold Graph.get_neighbors
    rw [hmGet_add_edge_ne g to_node hn]
  · unfold Graph.get_neighbors
    rw [hmGet_add_edge_from]
    simpa using mem_hsInsert
  · exact hmGet_add_edge_isSome g from_node to_node
  · intro hx
    unfold Graph.get_neighbors at hx ⊢
    by_cases hn : n = from_node
    · subst hn
      rw [hmGet_add_edge_from]
      simpa using mem_hsInsert.mpr (Or.inl hx)
    · rwa [hmGet_add_edge_ne g to_node hn]

/-- Witness for C10: frame property at a concrete graph and pair. -/
theorem C10_add_edge_frame_witness :
    ("b" ∈ (((buildGraph [("a", "b")]).add_edge "a" "c").get_neighbors "b").getD []
      ↔ "b" ∈ ((buildGraph [("a", "b")]).get_neighbors "b").getD []) ∧
    (hmGet ((buildGraph [("a", "b")]).add_edge "a" "c").adjacency_list "b").isSome :=
  ⟨(C10_add_edge_frame (buildGraph [("a", "b")]) "a" "c" "b" "b").1 (by decide),
   (C10_add_edge_frame (buildGraph [("a", "b")]) "a" "c" "b" "b").2.2.1 (by decide)⟩

/-! ## Degree maps: keys, lengths, sums -/

theorem keys_calculate_out_degrees (g : Graph) :
    g.calculate_out_degrees.map Prod.fst = g.adjacency_list.map Prod.fst := by
  unfold Graph.calculate_out_degrees
  rw [List.map_map]
  exact List.map_congr_left (fun p _ => rfl)

theorem keys_foldl_hmModify (ns : List Node) (m : List (Node × Nat)) :
    (ns.foldl (fun m' nb => hmModify m' nb (· + 1)) m).map Prod.fst
      = m.map Prod.fst := by
  induction ns generalizing m with
  | nil => rfl
  | cons n rest ih => rw [List.foldl_cons, ih, keys_hmModify]

theorem keys_outer_fold (l : List (Node × List Node)) (m : List (Node × Nat)) :
    (l.foldl (fun m p => p.2.foldl (fun m' nb => hmModify m' nb (· + 1)) m) m).map
        Prod.fst = m.map Prod.fst := by
  induction l generalizing m with
  | nil => rfl
  | cons p rest ih => rw [List.foldl_cons, ih, keys_foldl_hmModify]

theorem keys_calculate_in_degrees (g : Graph) :
    g.calculate_in_degrees.map Prod.fst = g.adjacency_list.map Prod.fst := by
  unfold Graph.calculate_in_degrees
  rw [keys_outer_fold, List.map_map]
  exact List.map_congr_left (fun p _ => rfl)

theorem sumValues_cons (p : Node × Nat) (m : List (Node × Nat)) :
    sumValues (p :: m) = p.2 + sumValues m := by
  simp [sumValues]

theorem sumValues_hmModify_incr (m : List (Node × Nat)) (k : Node)
    (h : (hmGet m k).isSome) :
    sumValues (hmModify m k (· + 1)) = sumValues m + 1 := by
  induction m with
  | nil => simp [hmGet] at h
  | cons p rest ih =>
    obtain ⟨a, b⟩ := p
    by_cases ha : a = k
    · simp only [hmModify, if_pos ha, sumValues_cons]
      omega
    · simp only [hmGet_cons, if_neg ha] at h
      simp only [hmModify, if_neg ha, sumValues_cons, ih h]
      omega

theorem sumValues_foldl_incr (ns : List Node) (m : List (Node × Nat))
    (h : ∀ n ∈ ns, (hmGet m n).isSome) :
    sumValues (ns.foldl (fun m' nb => hmModify m' nb (· + 1)) m)
      = sumValues m + ns.length := by
  induction ns generalizing m with
  | nil => simp
  | cons n rest ih =>
    rw [List.foldl_cons]
    have hrest : ∀ x ∈ rest, (hmGet (hmModify m n (· + 1)) x).isSome := by
      intro x hx
      rw [hmGet_isSome_of_keys_eq (keys_hmModify m n (· + 1)) x]
      exact h x (List.mem_cons_of_mem _ hx)
    rw [ih _ hrest, sumValues_hmModify_incr m n (h n (List.mem_cons_self _ _))]
    simp; omega

theorem sumValues_init_zero (l : List (Node × List Node)) :
    sumValues (l.map (fun p => (p.1, 0))) = 0 := by
  induction l with
  | nil => rfl
  | cons p rest ih => simp [sumValues_cons, ih]

theorem sumValues_outer_fold (adj : List (Node × List Node))
    (hclosed : ∀ p ∈ adj, ∀ n ∈ p.2, (hmGet adj n).isSome) :
    ∀ (l : List (Node × List Node)) (m : List (Node × Nat)),
      (∀ p ∈ l, p ∈ adj) → m.map Prod.fst = adj.map Prod.fst →
      sumValues (l.foldl
          (fun m p => p.2.foldl (fun m' nb => hmModify m' nb (· + 1)) m) m)
        = sumValues m + (l.map (fun p => p.2.length)).sum := by
  intro l
  induction l with
  | nil => intro m _ _; simp
  | cons p rest ih =>
    intro m hsub hkeys
    rw [List.foldl_cons]
    have hmem : ∀ n ∈ p.2, (hmGet m n).isSome := by
      intro n hn
      rw [hmGet_isSome_of_keys_eq hkeys n]
      exact hclosed p (hsub p (List.mem_cons_self _ _)) n hn
    have hkeys2 : (p.2.foldl (fun m' nb => hmModify m' nb (· + 1)) m).map Prod.fst
        = adj.map Prod.fst := by
      rw [keys_foldl_hmModify]; exact hkeys
    rw [ih _ (fun q hq => hsub q (List.mem_cons_of_mem _ hq)) hkeys2,
      sumValues_foldl_incr _ _ hmem]
    simp; omega

theorem sumValues_in_degrees {g : Graph} (h : GraphInv g) :
    sumValues g.calculate_in_degrees
      = (g.adjacency_list.map (fun p => p.2.length)).sum := by
  unfold Graph.calculate_in_degrees
  rw [sumValues_outer_fold g.adjacency_list h.closed g.adjacency_list _
      (fun p hp => hp) (by rw [List.map_map]; exact List.map_congr_left fun p _ => rfl),
    sumValues_init_zero]
  simp

theorem sumValues_out_degrees {g : Graph} (h : GraphInv g) :
    sumValues g.calculate_out_degrees
      = (g.adjacency_list.map (fun p => p.2.length)).sum := by
  unfold sumValues Graph.calculate_out_degrees
  rw [List.map_map]
  apply congrArg List.sum
  apply List.map_congr_left
  intro p hp
  have hself : hmGet g.adjacency_list p.1 = some p.2 :=
    hmGet_mem_self h.nodupKeys hp
  simp [Graph.get_neighbors, Function.comp, hself]

theorem edgeList_foldr_length (l : List (Node × List Node)) :
    (l.foldr (fun p acc => p.2.map (fun n => (p.1, n)) ++ acc) []).length
      = (l.map (fun p => p.2.length)).sum := by
  induction l with
  | nil => rfl
  | cons p rest ih => simp [ih]

theorem mem_edgeList_foldr {l : List (Node × List Node)} {x : Node × Node} :
    x ∈ l.foldr (fun p acc => p.2.map (fun n => (p.1, n)) ++ acc) [] ↔
      ∃ q ∈ l, q.1 = x.1 ∧ x.2 ∈ q.2 := by
  induction l with
  | nil => simp
  | cons p rest ih =>
    simp only [List.foldr_cons, List.mem_append, ih, List.mem_cons, List.mem_map]
    constructor
    · rintro (⟨n, hn, rfl⟩ | ⟨q, hq, hq1, hq2⟩)
      · exact ⟨p, Or.inl rfl, rfl, hn⟩
      · exact ⟨q, Or.inr hq, hq1, hq2⟩
    · rintro ⟨q, hq | hq, hq1, hq2⟩
      · subst hq
        exact Or.inl ⟨x.2, hq2, by rw [hq1]⟩
      · exact Or.inr ⟨q, hq, hq1, hq2⟩

theorem edgeList_nodup_aux (l : List (Node × List Node))
    (hk : (l.map Prod.fst).Nodup) (hn : ∀ p ∈ l, p.2.Nodup) :
    (l.foldr (fun p acc => p.2.map (fun n => (p.1, n)) ++ acc) []).Nodup := by
  induction l with
  | nil => simp
  | cons p rest ih =>
    simp only [List.map_cons, List.nodup_cons] at hk
    simp only [List.foldr_cons]
    rw [List.nodup_append]
    refine ⟨?_, ih hk.2 (fun q hq => hn q (List.mem_cons_of_mem _ hq)), ?_⟩
    · exact (hn p (List.mem_cons_self _ _)).map
        (fun n₁ n₂ he => by injection he)
    · intro a ha hb
      obtain ⟨n, hn', rfl⟩ := List.mem_map.mp ha
      obtain ⟨q, hq, hq1, _⟩ := mem_edgeList_foldr.mp hb
      exact hk.1 (List.mem_map.mpr ⟨q, hq, hq1⟩)

/-! ## C6: degree sum law -/

/-- C6: for every reachable graph, the out-degree values and the in-degree
values have the same sum, equal to the number of distinct directed edges of
the adjacency relation (the edge list is duplicate-free, so each ordered pair
is counted once however often it was inserted). -/
theorem C6_degree_sum_law (edges : List (Node × Node)) :
    sumValues (buildGraph edges).calculate_out_degrees
      = sumValues (buildGraph edges).calculate_in_degrees ∧
    sumValues (buildGraph edges).calculate_out_degrees
      = (edgeList (buildGraph edges)).length ∧
    (edgeList (buildGraph edges)).Nodup := by
  have h := graphInv_buildGraph edges
  refine ⟨?_, ?_, ?_⟩
  · rw [sumValues_out_degrees h, sumValues_in_degrees h]
  · rw [sumValues_out_degrees h]
    exact (edgeList_foldr_length _).symm
  · exact edgeList_nodup_aux _ h.nodupKeys h.nodupNbrs

/-! ## C8: endpoints and degree-map coverage -/

theorem hmGet_add_edge_self_from (g : Graph) (a b : Node) :
    (hmGet (g.add_edge a b).adjacency_list a).isSome := by
  rw [hmGet_add_edge_from]; rfl

theorem hmGet_add_edge_self_to (g : Graph) (a b : Node) :
    (hmGet (g.add_edge a b).adjacency_list b).isSome := by
  rw [add_edge_adjacency,
    hmGet_isSome_of_keys_eq (keys_hmModify _ _ _) b]
  exact hmGet_ensureKey_self _ b

theorem hmGet_foldl_isSome {n : Node} (edges : List (Node × Node)) {g : Graph}
    (h : (hmGet g.adjacency_list n).isSome) :
    (hmGet (edges.foldl (fun g e => g.add_edge e.1 e.2) g).adjacency_list n).isSome := by
  induction edges generalizing g with
  | nil => exact h
  | cons e rest ih => exact ih (hmGet_add_edge_isSome g e.1 e.2 h)

theorem endpoints_mem_foldl {a b : Node} :
    ∀ (edges : List (Node × Node)) (g : Graph), (a, b) ∈ edges →
      (hmGet (edges.foldl (fun g e => g.add_edge e.1 e.2) g).adjacency_list a).isSome ∧
      (hmGet (edges.foldl (fun g e => g.add_edge e.1 e.2) g).adjacency_list b).isSome := by
  intro edges
  induction edges with
  | nil => intro g h; simp at h
  | cons e rest ih =>
    intro g h
    rcases List.mem_cons.mp h with h | h
    · subst h
      rw [List.foldl_cons]
      exact ⟨hmGet_foldl_isSome rest (hmGet_add_edge_self_from g a b),
        hmGet_foldl_isSome rest (hmGet_add_edge_self_to g a b)⟩
    · exact ih _ h

/-- C8: every endpoint of an inserted pair becomes a key of the adjacency
map; both degree maps cover exactly the adjacency keys (zero-degree nodes
included) and their sizes equal `num_vertices`. -/
theorem C8_degree_maps_cover_all_nodes (edges : List (Node × Node)) (a b : Node) :
    ((a, b) ∈ edges →
      (hmGet (buildGraph edges).adjacency_list a).isSome ∧
      (hmGet (buildGraph edges).adjacency_list b).isSome) ∧
    (buildGraph edges).calculate_out_degrees.map Prod.fst
      = (buildGraph edges).adjacency_list.map Prod.fst ∧
    (buildGraph edges).calculate_in_degrees.map Prod.fst
      = (buildGraph edges).adjacency_list.map Prod.fst ∧
    (buildGraph edges).calculate_out_degrees.length
      = (buildGraph edges).num_vertices ∧
    (buildGraph edges).calculate_in_degrees.length
      = (buildGraph edges).num_vertices := by
  have h := graphInv_buildGraph edges
  refine ⟨fun hm => endpoints_mem_foldl edges Graph.new hm, ?_, ?_, ?_, ?_⟩
  · exact keys_calculate_out_degrees _
  · exact keys_calculate_in_degrees _
  · have := congrArg List.length (keys_calculate_out_degrees (buildGraph edges))
    simpa [h.count] using this
  · have := congrArg List.length (keys_calculate_in_degrees (buildGraph edges))
    simpa [h.count] using this

/-- Witness for C8 on the one-edge graph `a → b`. -/
theorem C8_degree_maps_cover_all_nodes_witness :
    ((hmGet (buildGraph [("a", "b")]).adjacency_list "a").isSome ∧
      (hmGet (buildGraph [("a", "b")]).adjacency_list "b").isSome) ∧
    (buildGraph [("a", "b")]).calculate_out_degrees.length
      = (buildGraph [("a", "b")]).num_vertices :=
  ⟨(C8_degree_maps_cover_all_nodes [("a", "b")] "a" "b").1 (by decide),
   (C8_degree_maps_cover_all_nodes [("a", "b")] "a" "b").2.2.2.1⟩

/-! ## Label propagation: invariants and lookup safety -/

theorem getD_mod_mem {l : List Node} (h : l ≠ []) (i : Nat) (d : Node) :
    l.getD (i % l.length) d ∈ l := by
  have hlt : i % l.length < l.length := Nat.mod_lt i (List.length_pos.mpr h)
  rw [List.getD_eq_getElem l d hlt]
  exact List.getElem_mem hlt

theorem mem_foldl_insertOnce {x : Node} :
    ∀ (ls acc : List Node),
      x ∈ ls.foldl (fun acc x => if x ∈ acc then acc else acc ++ [x]) acc →
      x ∈ acc ∨ x ∈ ls := by
  intro ls
  induction ls with
  | nil => intro acc h; exact Or.inl h
  | cons y rest ih =>
    intro acc h
    rw [List.foldl_cons] at h
    rcases ih _ h with h' | h'
    · by_cases hy : y ∈ acc
      · rw [if_pos hy] at h'; exact Or.inl h'
      · rw [if_neg hy] at h'
        rcases List.mem_append.mp h' with h'' | h''
        · exact Or.inl h''
        · simp only [List.mem_singleton] at h''
          exact Or.inr (h'' ▸ List.mem_cons_self _ _)
    · exact Or.inr (List.mem_cons_of_mem _ h')

theorem mem_distinctList {ls : List Node} {x : Node}
    (h : x ∈ distinctList ls) : x ∈ ls := by
  rcases mem_foldl_insertOnce ls [] h with h' | h'
  · simp at h'
  · exact h'

theorem mem_argmax_sub {tally : List Node} {x : Node}
    (h : x ∈ argmaxLabels tally) : x ∈ tally :=
  mem_distinctList (List.mem_filter.mp h).1

theorem mem_tallyLabels {labels : List (Node × Node)} {neighbors : List Node}
    {x : Node} (h : x ∈ tallyLabels labels neighbors) :
    ∃ n ∈ neighbors, hmGet labels n = some x := by
  unfold tallyLabels at h
  exact List.mem_filterMap.mp h

theorem tallyStrict_eq {labels : List (Node × Node)} {neighbors : List Node}
    (h : ∀ n ∈ neighbors, (hmGet labels n).isSome) :
    tallyLabelsStrict labels neighbors = some (tallyLabels labels neighbors) := by
  induction neighbors with
  | nil => rfl
  | cons n rest ih =>
    obtain ⟨l, hl⟩ := Option.isSome_iff_exists.mp (h n (List.mem_cons_self _ _))
    unfold tallyLabelsStrict
    rw [hl, ih (fun x hx => h x (List.mem_cons_of_mem _ hx))]
    simp [tallyLabels, List.filterMap_cons, hl]

theorem labInv_init (g : Graph) : LabInv g (labelsInit g) := by
  constructor
  · unfold labelsInit
    rw [List.map_map]
    exact List.map_congr_left fun p _ => rfl
  · intro p hp
    unfold labelsInit at hp
    obtain ⟨q, hq, rfl⟩ := List.mem_map.mp hp
    rw [hmGet_isSome_iff]
    exact List.mem_map.mpr ⟨q, hq, rfl⟩

theorem hmGet_map_self (l : List (Node × List Node)) (k : Node) :
    hmGet (l.map (fun p => (p.1, p.1))) k = (hmGet l k).map (fun _ => k) := by
  induction l with
  | nil => rfl
  | cons p rest ih =>
    obtain ⟨a, ns⟩ := p
    by_cases hp : a = k
    · simp [hmGet_cons, hp]
    · simp [hmGet_cons, hp, ih]

theorem hmGet_labelsInit (g : Graph) (k : Node) :
    hmGet (labelsInit g) k = (hmGet g.adjacency_list k).map (fun _ => k) :=
  hmGet_map_self g.adjacency_list k

theorem visitNode_some_branches {g : Graph} {labels : List (Node × Node)}
    {n : Node} (pick : Nat) {neighbors : List Node}
    (hnb : g.get_neighbors n = some neighbors) (hne : neighbors ≠ [])
    (hc : argmaxLabels (tallyLabels labels neighbors) ≠ []) {cur : Node}
    (hcur : hmGet labels n = some cur) :
    visitNode g labels n pick =
      (if cur ≠ (argmaxLabels (tallyLabels labels neighbors)).getD
          (pick % (argmaxLabels (tallyLabels labels neighbors)).length) ""
       then some (hmInsert labels n
          ((argmaxLabels (tallyLabels labels neighbors)).getD
            (pick % (argmaxLabels (tallyLabels labels neighbors)).length) ""), true)
       else some (labels, false)) := by
  simp [visitNode, hnb, hne, hc, hcur, List.getD_eq_getElem?_getD]

theorem visitNodeStrict_some_branches {g : Graph} {labels : List (Node × Node)}
    {n : Node} (pick : Nat) {neighbors : List Node}
    (hnb : g.get_neighbors n = some neighbors) (hne : neighbors ≠ [])
    (hts : tallyLabelsStrict labels neighbors = some (tallyLabels labels neighbors))
    (hc : argmaxLabels (tallyLabels labels neighbors) ≠ []) {cur : Node}
    (hcur : hmGet labels n = some cur) :
    visitNodeStrict g labels n pick =
      (if cur ≠ (argmaxLabels (tallyLabels labels neighbors)).getD
          (pick % (argmaxLabels (tallyLabels labels neighbors)).length) ""
       then some (hmInsert labels n
          ((argmaxLabels (tallyLabels labels neighbors)).getD
            (pick % (argmaxLabels (tallyLabels labels neighbors)).length) ""), true)
       else some (labels, false)) := by
  simp [visitNodeStrict, hnb, hne, hts, hc, hcur, List.getD_eq_getElem?_getD]

theorem visit_inv {g : Graph} (hg : GraphInv g) {labels : List (Node × Node)}
    (hl : LabInv g labels) (n : Node) (pick : Nat) :
    ∃ res, visitNode g labels n pick = some res ∧ LabInv g res.1 ∧
      visitNodeStrict g labels n pick = some res := by
  cases hnb : g.get_neighbors n with
  | none =>
    exact ⟨(labels, false), by simp [visitNode, hnb], hl,
      by simp [visitNodeStrict, hnb]⟩
  | some neighbors =>
    have hnbmem : (n, neighbors) ∈ g.adjacency_list := by
      unfold Graph.get_neighbors at hnb
      exact hmGet_eq_some_mem hnb
    by_cases hne : neighbors = []
    · exact ⟨(labels, false), by simp [visitNode, hnb, hne], hl,
        by simp [visitNodeStrict, hnb, hne]⟩
    · have hlook : ∀ x ∈ neighbors, (hmGet labels x).isSome := by
        intro x hx
        rw [hmGet_isSome_of_keys_eq hl.keys x]
        exact hg.closed _ hnbmem x hx
      have hts := tallyStrict_eq hlook
      by_cases hc : argmaxLabels (tallyLabels labels neighbors) = []
      · exact ⟨(labels, false), by simp [visitNode, hnb, hne, hc], hl,
          by simp [visitNodeStrict, hnb, hne, hts, hc]⟩
      · have hkey : (hmGet labels n).isSome := by
          rw [hmGet_isSome_of_keys_eq hl.keys n, hmGet_isSome_iff]
          exact List.mem_map.mpr ⟨(n, neighbors), hnbmem, rfl⟩
        obtain ⟨cur, hcur⟩ := Option.isSome_iff_exists.mp hkey
        have hmaxmem : (argmaxLabels (tallyLabels labels neighbors)).getD
            (pick % (argmaxLabels (tallyLabels labels neighbors)).length) ""
            ∈ tallyLabels labels neighbors :=
          mem_argmax_sub (getD_mod_mem hc pick "")
        obtain ⟨nb, hnbm, hnbl⟩ := mem_tallyLabels hmaxmem
        have hvalmax : (hmGet g.adjacency_list
            ((argmaxLabels (tallyLabels labels neighbors)).getD
              (pick % (argmaxLabels (tallyLabels labels neighbors)).length) "")).isSome :=
          hl.values _ (hmGet_eq_some_mem hnbl)
        have hv := visitNode_some_branches pick hnb hne hc hcur
        have hvs := visitNodeStrict_some_branches pick hnb hne hts hc hcur
        by_cases hchg : cur ≠ (argmaxLabels (tallyLabels labels neighbors)).getD
            (pick % (argmaxLabels (tallyLabels labels neighbors)).length) ""
        · rw [if_pos hchg] at hv hvs
          refine ⟨(hmInsert labels n ((argmaxLabels (tallyLabels labels neighbors)).getD
              (pick % (argmaxLabels (tallyLabels labels neighbors)).length) ""), true),
            hv, ?_, hvs⟩
          constructor
          · rw [keys_hmInsert_of_isSome _ hkey]
            exact hl.keys
          · intro p hp
            rcases mem_hmInsert hp with hp | hp
            · exact hl.values p hp
            · rw [hp]
              exact hvalmax
        · rw [if_neg hchg] at hv hvs
          exact ⟨(labels, false), hv, hl, hvs⟩

theorem passAux_inv {g : Graph} (hg : GraphInv g) (picks : Nat → Nat) :
    ∀ (order : List Node) (i : Nat) (labels : List (Node × Node)) (changed : Bool),
      LabInv g labels →
      ∃ res, passAux g picks order i labels changed = some res ∧ LabInv g res.1 ∧
        passAuxStrict g picks order i labels changed = some res := by
  intro order
  induction order with
  | nil => exact fun i labels changed hl => ⟨(labels, changed), rfl, hl, rfl⟩
  | cons n rest ih =>
    intro i labels changed hl
    obtain ⟨⟨l₁, c₁⟩, h1, hl1, h1s⟩ := visit_inv hg hl n (picks i)
    obtain ⟨res₂, h2, hl2, h2s⟩ := ih (i + 1) l₁ (changed || c₁) hl1
    exact ⟨res₂, by simp only [passAux, h1]; exact h2, hl2,
      by simp only [passAuxStrict, h1s]; exact h2s⟩

theorem lpLoop_inv {g : Graph} (hg : GraphInv g) (sched : Schedule) :
    ∀ (fuel iter : Nat) (labels : List (Node × Node)), LabInv g labels →
      ∃ m, lpLoop g sched fuel iter labels = some m ∧ LabInv g m ∧
        lpLoopStrict g sched fuel iter labels = some m := by
  intro fuel
  induction fuel with
  | zero => exact fun iter labels hl => ⟨labels, rfl, hl, rfl⟩
  | succ fuel ih =>
    intro iter labels hl
    obtain ⟨⟨l₁, c₁⟩, h1, hl1, h1s⟩ :=
      passAux_inv hg (sched.picks iter) (sched.orders iter) 0 labels false hl
    obtain ⟨m, h2, hl2, h2s⟩ := ih (iter + 1) l₁ hl1
    exact ⟨m, by simp only [lpLoop, h1]; exact h2, hl2,
      by simp only [lpLoopStrict, h1s]; exact h2s⟩

/-! ## C9: no lookup inside `label_propagation` ever misses -/

/-- C9: on every graph reachable by `add_edge` insertions and under every
schedule, the labels map covers every adjacency key throughout the run with
values that are themselves keys: the `labels.get(node).unwrap()` panic path is
unreachable (the run returns `some`), and the strict variant — in which the
tallying lookup `labels.get(neighbor)` must also always hit — computes the
very same result, so the missing-key branch is never taken. -/
theorem C9_label_lookups_never_miss (edges : List (Node × Node)) (sched : Schedule) :
    (Graph.label_propagation (buildGraph edges) sched).isSome ∧
    label_propagation_strict (buildGraph edges) sched
      = Graph.label_propagation (buildGraph edges) sched := by
  obtain ⟨m, h1, _, h2⟩ := lpLoop_inv (graphInv_buildGraph edges) sched
    max_iterations 0 (labelsInit (buildGraph edges)) (labInv_init _)
  unfold Graph.label_propagation label_propagation_strict
  rw [h1, h2]
  exact ⟨rfl, rfl⟩

/-! ## C7: isolated nodes keep their seed label -/

theorem visitNode_result {g : Graph} {labels : List (Node × Node)} {n : Node}
    {pick : Nat} {res : List (Node × Node) × Bool}
    (h : visitNode g labels n pick = some res) :
    res.1 = labels ∨ ∃ l, res.1 = hmInsert labels n l := by
  cases hnb : g.get_neighbors n with
  | none =>
    rw [show visitNode g labels n pick = some (labels, false) from
      by simp [visitNode, hnb]] at h
    cases h
    exact Or.inl rfl
  | some neighbors =>
    by_cases hne : neighbors = []
    · rw [show visitNode g labels n pick = some (labels, false) from
        by simp [visitNode, hnb, hne]] at h
      cases h
      exact Or.inl rfl
    · by_cases hc : argmaxLabels (tallyLabels labels neighbors) = []
      · rw [show visitNode g labels n pick = some (labels, false) from
          by simp [visitNode, hnb, hne, hc]] at h
        cases h
        exact Or.inl rfl
      · cases hcur : hmGet labels n with
        | none =>
          rw [show visitNode g labels n pick = none from
            by simp [visitNode, hnb, hne, hc, hcur]] at h
          cases h
        | some cur =>
          rw [visitNode_some_branches pick hnb hne hc hcur] at h
          by_cases hchg : cur ≠ (argmaxLabels (tallyLabels labels neighbors)).getD
              (pick % (argmaxLabels (tallyLabels labels neighbors)).length) ""
          · rw [if_pos hchg] at h
            cases h
            exact Or.inr ⟨_, rfl⟩
          · rw [if_neg hchg] at h
            cases h
            exact Or.inl rfl

theorem visit_isolated {g : Graph} {node : Node}
    (hiso : g.get_neighbors node = none ∨ g.get_neighbors node = some [])
    {labels : List (Node × Node)} {pick : Nat} {res : List (Node × Node) × Bool}
    (h : visitNode g labels node pick = some res) : res.1 = labels := by
  rcases hiso with hi | hi
  · rw [show visitNode g labels node pick = some (labels, false) from
      by simp [visitNode, hi]] at h
    cases h
    rfl
  · rw [show visitNode g labels node pick = some (labels, false) from
      by simp [visitNode, hi]] at h
    cases h
    rfl

theorem passAux_isolated {g : Graph} {node : Node}
    (hiso : g.get_neighbors node = none ∨ g.get_neighbors node = some [])
    (picks : Nat → Nat) :
    ∀ (order : List Node) (i : Nat) (labels : List (Node × Node)) (changed : Bool)
      (res : List (Node × Node) × Bool),
      passAux g picks order i labels changed = some res →
      hmGet res.1 node = hmGet labels node := by
  intro order
  induction order with
  | nil =>
    intro i labels changed res h
    cases h; rfl
  | cons n rest ih =>
    intro i labels changed res h
    cases hv : visitNode g labels n (picks i) with
    | none =>
      simp only [passAux, hv] at h
      exact Option.noConfusion h
    | some r1 =>
      obtain ⟨l₁, c₁⟩ := r1
      have hrec : passAux g picks rest (i + 1) l₁ (changed || c₁) = some res := by
        simpa only [passAux, hv] using h
      have hstep : hmGet l₁ node = hmGet labels node := by
        by_cases hn : n = node
        · subst hn
          rw [show l₁ = labels from visit_isolated hiso hv]
        · rcases visitNode_result hv with h1 | ⟨l, h1⟩
          · rw [show l₁ = labels from h1]
          · rw [show l₁ = hmInsert labels n l from h1]
            exact hmGet_hmInsert_ne _ _ (fun he => hn he.symm)
      rw [ih _ _ _ _ hrec, hstep]

theorem lpLoop_isolated {g : Graph} {node : Node}
    (hiso : g.get_neighbors node = none ∨ g.get_neighbors node = some [])
    (sched : Schedule) :
    ∀ (fuel iter : Nat) (labels m : List (Node × Node)),
      lpLoop g sched fuel iter labels = some m →
      hmGet m node = hmGet labels node := by
  intro fuel
  induction fuel with
  | zero =>
    intro iter labels m h
    cases h; rfl
  | succ fuel ih =>
    intro iter labels m h
    cases hp : passAux g (sched.picks iter) (sched.orders iter) 0 labels false with
    | none =>
      simp only [lpLoop, hp] at h
      exact Option.noConfusion h
    | some r1 =>
      obtain ⟨l₁, c₁⟩ := r1
      have hrec : lpLoop g sched fuel (iter + 1) l₁ = some m := by
        simpa only [lpLoop, hp] using h
      rw [ih _ _ _ hrec,
        passAux_isolated hiso (sched.picks iter) _ _ _ _ _ hp]

/-- C7: a node with no out-neighbor set, or an empty one, is never updated:
its label is preserved across every single pass, and the returned mapping
still carries its seed label (the node itself), for every schedule. -/
theorem C7_isolated_node_keeps_seed (g : Graph) (sched : Schedule) (node : Node)
    (hiso : g.get_neighbors node = none ∨ g.get_neighbors node = some []) :
    (∀ (picks : Nat → Nat) (order : List Node) (i : Nat)
        (labels : List (Node × Node)) (changed : Bool)
        (res : List (Node × Node) × Bool),
        passAux g picks order i labels changed = some res →
        hmGet res.1 node = hmGet labels node) ∧
    (∀ m, g.label_propagation sched = some m →
        hmGet m node = hmGet (labelsInit g) node ∧
        ((hmGet g.adjacency_list node).isSome → hmGet m node = some node)) := by
  refine ⟨fun picks order i labels changed res h =>
    passAux_isolated hiso picks order i labels changed res h, ?_⟩
  intro m hm
  have h1 : hmGet m node = hmGet (labelsInit g) node :=
    lpLoop_isolated hiso sched _ _ _ _ hm
  refine ⟨h1, fun hk => ?_⟩
  rw [h1, hmGet_labelsInit]
  obtain ⟨v, hv⟩ := Option.isSome_iff_exists.mp hk
  rw [hv]
  rfl

/-! ## Evaluation helpers for concrete runs -/

theorem lpLoop_succ_eq {g : Graph} {sched : Schedule} {iter : Nat}
    {labels labels' : List (Node × Node)} {ch : Bool} (fuel : Nat)
    (h : passAux g (sched.picks iter) (sched.orders iter) 0 labels false
      = some (labels', ch)) :
    lpLoop g sched (fuel + 1) iter labels = lpLoop g sched fuel (iter + 1) labels' := by
  simp only [lpLoop, h]

theorem lpLoop_fix {g : Graph} {sched : Schedule} {labels : List (Node × Node)}
    (hfix : ∀ iter, passAux g (sched.picks iter) (sched.orders iter) 0 labels false
      = some (labels, false)) :
    ∀ fuel iter, lpLoop g sched fuel iter labels = some labels := by
  intro fuel
  induction fuel with
  | zero => intro iter; rfl
  | succ fuel ih =>
    intro iter
    rw [lpLoop_succ_eq fuel (hfix iter)]
    exact ih (iter + 1)

theorem lp_gAB_eval : gAB.label_propagation schedAB = some lABfix := by
  have h0 : passAux gAB (schedAB.picks 0) (schedAB.orders 0) 0
      (labelsInit gAB) false = some (lABfix, true) := by decide
  have hfix : ∀ iter, passAux gAB (schedAB.picks iter) (schedAB.orders iter) 0
      lABfix false = some (lABfix, false) :=
    fun _ => (by decide :
      passAux gAB (fun _ => 0) ["a", "b"] 0 lABfix false = some (lABfix, false))
  unfold Graph.label_propagation
  rw [show max_iterations = 499 + 1 from rfl, lpLoop_succ_eq 499 h0]
  exact lpLoop_fix hfix 499 1

/-- Witness for C7 at the graph `a → b`, node `b` (empty neighbor set) under
the trivial schedule. -/
theorem C7_isolated_node_keeps_seed_witness :
    hmGet lABfix "b" = hmGet (labelsInit gAB) "b" ∧ hmGet lABfix "b" = some "b" :=
  ⟨((C7_isolated_node_keeps_seed gAB schedAB "b" (by decide)).2
      lABfix lp_gAB_eval).1,
   ((C7_isolated_node_keeps_seed gAB schedAB "b" (by decide)).2
      lABfix lp_gAB_eval).2 (by decide)⟩

/-! ## C1 / C2: the loop always runs all 500 passes -/

theorem lpLoopCount_le (g : Graph) (sched : Schedule) :
    ∀ (fuel iter : Nat) (labels : List (Node × Node)),
      lpLoopCount g sched fuel iter labels ≤ fuel := by
  intro fuel
  induction fuel with
  | zero => intro iter labels; exact Nat.le_refl 0
  | succ fuel ih =>
    intro iter labels
    cases hp : passAux g (sched.picks iter) (sched.orders iter) 0 labels false with
    | none =>
      simp only [lpLoopCount, hp]
      omega
    | some r1 =>
      obtain ⟨l₁, c₁⟩ := r1
      simp only [lpLoopCount, hp]
      have := ih (iter + 1) l₁
      omega

theorem lpLoopCount_eq_fuel (g : Graph) (sched : Schedule) :
    ∀ (fuel iter : Nat) (labels : List (Node × Node)),
      (lpLoop g sched fuel iter labels).isSome →
      lpLoopCount g sched fuel iter labels = fuel := by
  intro fuel
  induction fuel with
  | zero => intro iter labels _; rfl
  | succ fuel ih =>
    intro iter labels h
    cases hp : passAux g (sched.picks iter) (sched.orders iter) 0 labels false with
    | none =>
      simp only [lpLoop, hp] at h
      exact absurd h (by simp)
    | some r1 =>
      obtain ⟨l₁, c₁⟩ := r1
      simp only [lpLoop, hp] at h
      simp only [lpLoopCount, hp]
      rw [ih (iter + 1) l₁ h]
      omega

/-- C2: label propagation performs at most `max_iterations` (500) passes on
every graph and under every schedule — its work is bounded even when the
labelling oscillates and never converges. -/
theorem C2_iteration_cap_bounds_work (g : Graph) (sched : Schedule) :
    lpPassesExecuted g sched ≤ max_iterations :=
  lpLoopCount_le g sched max_iterations 0 (labelsInit g)

/-- C1 (bug exhibit): on the graph `a → b` under the trivial schedule, the
pass with iteration index 1 — the second pass — already produces zero label
changes, and the run does return the labels of that pass; but the loop does
not stop there: it executes all 500 passes, exactly the iteration cap,
because the source never consults its `changed` flag. -/
theorem C1_no_early_stop_on_convergence :
    gAB.label_propagation schedAB = some lABfix ∧
    passAux gAB (schedAB.picks 1) (schedAB.orders 1) 0 lABfix false
      = some (lABfix, false) ∧
    lpPassesExecuted gAB schedAB = max_iterations := by
  refine ⟨lp_gAB_eval, by decide, ?_⟩
  unfold lpPassesExecuted
  apply lpLoopCount_eq_fuel
  rw [show lpLoop gAB schedAB max_iterations 0 (labelsInit gAB)
      = gAB.label_propagation schedAB from rfl, lp_gAB_eval]
  rfl

/-! ## C3: two mutual triangles -/

theorem lpLoop_flip {g : Graph} {sched : Schedule} {s t : List (Node × Node)}
    (hst : ∀ iter, passAux g (sched.picks iter) (sched.orders iter) 0 s false
      = some (t, true))
    (hts : ∀ iter, passAux g (sched.picks iter) (sched.orders iter) 0 t false
      = some (s, true)) :
    ∀ fuel iter,
      lpLoop g sched fuel iter s = some (if fuel % 2 = 0 then s else t) ∧
      lpLoop g sched fuel iter t = some (if fuel % 2 = 0 then t else s) := by
  intro fuel
  induction fuel with
  | zero => intro iter; simp [lpLoop]
  | succ fuel ih =>
    intro iter
    have e1 := (ih (iter + 1)).1
    have e2 := (ih (iter + 1)).2
    by_cases h2 : fuel % 2 = 0
    · have h3 : (fuel + 1) % 2 = 1 := by omega
      constructor
      · rw [lpLoop_succ_eq fuel (hst iter), e2]
        simp [h2, h3]
      · rw [lpLoop_succ_eq fuel (hts iter), e1]
        simp [h2, h3]
    · have h3 : (fuel + 1) % 2 = 0 := by omega
      constructor
      · rw [lpLoop_succ_eq fuel (hst iter), e2]
        simp [h2, h3]
      · rw [lpLoop_succ_eq fuel (hts iter), e1]
        simp [h2, h3]

/-- C3 counterexample: an admissible adversarial schedule — its visitation
order is a key permutation every pass, and every tie-break picks a label of
maximal tally — under which `label_propagation` on the two mutual triangles
returns three distinct labels, one of them covering a single node: not two
labels of three nodes each. -/
theorem C3_counterexample_adversarial_schedule :
    twoTriangles.label_propagation schedAdv = some oscB ∧
    (schedAdv.orders 0).Perm (twoTriangles.adjacency_list.map Prod.fst) ∧
    numDistinctLabels oscB = 3 ∧
    labelPopulation oscB "A" = 1 := by
  refine ⟨?_, by decide, by decide, by decide⟩
  have h0 : passAux twoTriangles (schedAdv.picks 0) (schedAdv.orders 0) 0
      (labelsInit twoTriangles) false = some (oscA, true) := by decide
  have hst : ∀ iter, passAux twoTriangles (schedAdv.picks iter)
      (schedAdv.orders iter) 0 oscA false = some (oscB, true) :=
    fun _ => (by decide :
      passAux twoTriangles (fun j => if j = 1 ∨ j = 2 then 1 else 0)
        ["B", "A", "C", "D", "E", "F"] 0 oscA false = some (oscB, true))
  have hts : ∀ iter, passAux twoTriangles (schedAdv.picks iter)
      (schedAdv.orders iter) 0 oscB false = some (oscA, true) :=
    fun _ => (by decide :
      passAux twoTriangles (fun j => if j = 1 ∨ j = 2 then 1 else 0)
        ["B", "A", "C", "D", "E", "F"] 0 oscB false = some (oscA, true))
  unfold Graph.label_propagation
  rw [show max_iterations = 499 + 1 from rfl, lpLoop_succ_eq 499 h0,
    (lpLoop_flip hst hts 499 1).1]
  norm_num

/-- C3 amended: for the two mutual triangles there are admissible schedules
— e.g. visiting in key order with first-candidate tie-breaks — under which
`label_propagation` returns exactly 2 distinct labels, each shared by exactly
3 nodes (one triangle each); the adversarial schedule above shows this does
not hold for *every* permutation/tie-break sequence. -/
theorem C3_amended_convergent_schedule :
    twoTriangles.label_propagation schedNice = some uniTri ∧
    (schedNice.orders 0).Perm (twoTriangles.adjacency_list.map Prod.fst) ∧
    numDistinctLabels uniTri = 2 ∧
    labelPopulation uniTri "B" = 3 ∧
    labelPopulation uniTri "E" = 3 := by
  refine ⟨?_, by decide, by decide, by decide, by decide⟩
  have h0 : passAux twoTriangles (schedNice.picks 0) (schedNice.orders 0) 0
      (labelsInit twoTriangles) false = some (uniTri, true) := by decide
  have hfix : ∀ iter, passAux twoTriangles (schedNice.picks iter)
      (schedNice.orders iter) 0 uniTri false = some (uniTri, false) :=
    fun _ => (by decide :
      passAux twoTriangles (fun _ => 0) ["A", "B", "C", "D", "E", "F"] 0
        uniTri false = some (uniTri, false))
  unfold Graph.label_propagation
  rw [show max_iterations = 499 + 1 from rfl, lpLoop_succ_eq 499 h0]
  exact lpLoop_fix hfix 499 1

end EmailGraph
